import Mathlib

/-!
Verification of the DocxTranslator document-transformation pipeline
(src/services/docxHandler.ts and src/services/geminiService.ts) against its
natural-language specification.

The DOM tree, JS strings and the host primitives (DOMParser, JSON.parse,
setTimeout, JSZip) are external collaborators; they are shallowly embedded:

* a paragraph node (w:p) is a `Para`: the ordered flattened list of its
  text-carrying descendant nodes (`Child`), each flagged as a text run (w:t)
  or not (e.g. w:instrText field-instruction content), together with the
  optional heading-style name reached through w:pPr/w:pStyle/@w:val
  (any missing link in that optional chain is `none`);
* JS string operations (includes, trim, toLowerCase, indexOf, lastIndexOf,
  substring, the two regex replaces of extractJson's fallback) are modelled
  as executable functions over `List Char`;
* JSON.parse is a parameter `String → Option JsonVal` (`none` = throw);
* `setTimeout` delays are recorded as a list of the requested durations.
-/

namespace DocxSpec

/-! ## JS string primitives -/

/-- Decides whether `needle` is a prefix of `hay` (char-exact). -/
def isPrefixL : List Char → List Char → Bool
  | [], _ => true
  | _ :: _, [] => false
  | a :: as, b :: bs => a = b && isPrefixL as bs

/-- Models `hay.includes(needle)` on the underlying character lists. -/
def containsSubL (hay needle : List Char) : Bool :=
  match hay with
  | [] => isPrefixL needle []
  | _ :: rest => isPrefixL needle hay || containsSubL rest needle

/-- Models the JS `String.prototype.includes` test. -/
def containsSub (s needle : String) : Bool :=
  containsSubL s.toList needle.toList

/-- Whitespace class used for JS `trim` and the regexes' `\s`. -/
def isWs (c : Char) : Bool := c.isWhitespace

/-- Models `s.trim()`: strip leading and trailing whitespace. -/
def trimL (l : List Char) : List Char :=
  ((l.dropWhile isWs).reverse.dropWhile isWs).reverse

/-- String-level wrapper for `trimL`. -/
def jsTrim (s : String) : String := String.mk (trimL s.toList)

/-- ASCII lower-casing of one character, as the case-insensitive regex flag
behaves on the style names involved here. -/
def lowerChar (c : Char) : Char :=
  if 65 ≤ c.toNat ∧ c.toNat ≤ 90 then Char.ofNat (c.toNat + 32) else c

/-- Lower-cases a string character by character. -/
def lowerStr (s : String) : String := String.mk (s.toList.map lowerChar)

/-! ## Document model (docxHandler.ts) -/

/-- One text-carrying descendant of a paragraph node: `isT` marks a `w:t`
text run; any other text-carrying node (field instruction and the like)
has `isT = false`.  `preserveSpace` records the `xml:space="preserve"`
attribute. -/
structure Child where
  isT : Bool
  content : String
  preserveSpace : Bool
deriving Repr, DecidableEq

/-- A paragraph node: its text-carrying children in document order plus the
style name reached through `w:pPr`/`w:pStyle`/`@w:val` (`none` when any
link of that optional chain is absent). -/
structure Para where
  children : List Child
  style : Option String
deriving Repr, DecidableEq

/-- An extractable item, `{ id: number; text: string }` of the source. -/
structure Item where
  id : Nat
  text : String
deriving Repr, DecidableEq

/-- `getSafeText` (docxHandler.ts line 30): concatenate the text content of
the paragraph's `w:t` descendants only, in document order. -/
def getSafeText (p : Para) : String :=
  String.join ((p.children.filter fun c => c.isT).map fun c => c.content)

/-- `pNode.textContent`: the concatenated text of every text-carrying
descendant, field-instruction content included. -/
def paraTextContent (p : Para) : String :=
  String.join (p.children.map fun c => c.content)

/-- `shouldSkip` (docxHandler.ts line 39): the full content contains the
table-of-contents field marker or the page-reference marker. -/
def shouldSkip (p : Para) : Bool :=
  containsSub (paraTextContent p) "TOC \\" || containsSub (paraTextContent p) "PAGEREF"

/-- The body of the `map` in `getExtractableParagraphs` (line 47): a skipped
paragraph is mapped to empty text, every other one to its safe text. -/
def extractItem (index : Nat) (p : Para) : Item :=
  if shouldSkip p then Item.mk index "" else Item.mk index (getSafeText p)

/-- `paragraphNodes.map((node, index) => ...)` starting at `index = i`. -/
def extractMapGo : Nat → List Para → List Item
  | _, [] => []
  | i, p :: rest => extractItem i p :: extractMapGo (i + 1) rest

/-- The filter predicate of `getExtractableParagraphs` (line 51):
`item.text.trim().length > 0`. -/
def keepItem (it : Item) : Bool := 0 < (jsTrim it.text).length

/-- `getExtractableParagraphs` (docxHandler.ts line 45). -/
def getExtractableParagraphs (paras : List Para) : List Item :=
  (extractMapGo 0 paras).filter keepItem

/-! ## Extractor lemmas -/

theorem extractItem_id (i : Nat) (p : Para) : (extractItem i p).id = i := by
  unfold extractItem; split <;> rfl

theorem mem_extractMapGo {it : Item} :
    ∀ {n : Nat} {paras : List Para},
      it ∈ extractMapGo n paras ↔ ∃ j p, paras[j]? = some p ∧ it = extractItem (n + j) p := by
  intro n paras
  induction paras generalizing n with
  | nil => simp [extractMapGo]
  | cons p rest ih =>
    simp only [extractMapGo, List.mem_cons]
    constructor
    · rintro (h | h)
      · exact ⟨0, p, by simp, by simpa using h⟩
      · obtain ⟨j, q, hq, he⟩ := (ih (n := n + 1)).1 h
        exact ⟨j + 1, q, by simpa using hq, by rw [he]; congr 1; omega⟩
    · rintro ⟨j, q, hq, he⟩
      cases j with
      | zero => left; simp at hq; rw [he, hq]; simp
      | succ j =>
        right
        refine (ih (n := n + 1)).2 ⟨j, q, by simpa using hq, ?_⟩
        rw [he]; congr 1; omega

theorem le_id_of_mem_extractMapGo {it : Item} :
    ∀ {n : Nat} {paras : List Para}, it ∈ extractMapGo n paras → n ≤ it.id := by
  intro n paras
  induction paras generalizing n with
  | nil => intro h; simp [extractMapGo] at h
  | cons p rest ih =>
    intro h
    rcases (List.mem_cons).1 h with h | h
    · rw [h, extractItem_id]
    · exact Nat.le_of_succ_le (ih h)

theorem pairwise_extractMapGo :
    ∀ {n : Nat} {paras : List Para},
      (extractMapGo n paras).Pairwise fun a b => a.id < b.id := by
  intro n paras
  induction paras generalizing n with
  | nil => simp [extractMapGo]
  | cons p rest ih =>
    refine List.pairwise_cons.2 ⟨?_, ih⟩
    intro b hb
    have := le_id_of_mem_extractMapGo hb
    rw [extractItem_id]; omega

theorem keepItem_empty (i : Nat) : keepItem (Item.mk i "") = false := rfl

/-- C1: a paragraph whose full textual content (field-instruction children
included) contains a TOC field marker or a PAGEREF marker never contributes
an item to the Extractor's output: its safe text is forced to empty and the
empty-after-trim filter removes it, so no output item carries its id. -/
theorem c1 (paras : List Para) (i : Nat) (p : Para)
    (hp : paras[i]? = some p) (hskip : shouldSkip p = true) :
    (getExtractableParagraphs paras).all (fun it => it.id != i) = true := by
  rw [List.all_eq_true]
  intro it hit
  rcases List.mem_filter.1 hit with ⟨hmem, hkeep⟩
  obtain ⟨j, q, hq, he⟩ := mem_extractMapGo.1 hmem
  rw [bne_iff_ne]
  intro hideq
  have hj : j = i := by
    have := extractItem_id (0 + j) q
    rw [← he] at this
    omega
  subst hj
  rw [hp] at hq
  cases hq
  rw [he] at hkeep
  simp only [extractItem, hskip, if_pos] at hkeep
  rw [show (0 + j) = j by omega] at hkeep
  rw [keepItem_empty] at hkeep
  exact Bool.false_ne_true hkeep

/-- C1 witness: a document with a visible paragraph (index 0) and a paragraph
carrying both visible text and a PAGEREF field instruction (index 1); no
extracted item carries id 1. -/
theorem c1_witness :
    (getExtractableParagraphs
        [Para.mk [Child.mk true "hello" false] none,
         Para.mk [Child.mk false " PAGEREF _Toc1 " false, Child.mk true "Chapter one" false]
           none]).all (fun it => it.id != 1) = true :=
  c1 _ 1 (Para.mk [Child.mk false " PAGEREF _Toc1 " false, Child.mk true "Chapter one" false] none)
    (by decide) (by decide)

/-- C5: the Extractor emits exactly the paragraphs whose safe text is
non-empty after trimming, in original document order (strictly increasing
ids); each emitted item's id is the paragraph's 0-based position and its text
is the concatenation, in document order, of the content of only the
paragraph's text-run children. -/
theorem c5 (paras : List Para) :
    (∀ i p, paras[i]? = some p → shouldSkip p = false →
        keepItem (Item.mk i (getSafeText p)) = true →
        Item.mk i (getSafeText p) ∈ getExtractableParagraphs paras) ∧
    (∀ it ∈ getExtractableParagraphs paras,
        ∃ p, paras[it.id]? = some p ∧ shouldSkip p = false ∧
          it.text = String.join ((p.children.filter fun c => c.isT).map fun c => c.content) ∧
          0 < (jsTrim it.text).length) ∧
    (getExtractableParagraphs paras).Pairwise fun a b => a.id < b.id := by
  refine ⟨?_, ?_, ?_⟩
  · intro i p hp hns hkeep
    refine List.mem_filter.2 ⟨?_, hkeep⟩
    refine mem_extractMapGo.2 ⟨i, p, hp, ?_⟩
    simp [extractItem, hns]
  · intro it hit
    rcases List.mem_filter.1 hit with ⟨hmem, hkeep⟩
    obtain ⟨j, q, hq, he⟩ := mem_extractMapGo.1 hmem
    have hid : it.id = j := by rw [he, extractItem_id]; omega
    refine ⟨q, by rw [hid]; exact hq, ?_, ?_, ?_⟩
    · by_contra hns
      have hskip : shouldSkip q = true := by
        cases h : shouldSkip q
        · exact absurd h hns
        · rfl
      rw [he] at hkeep
      simp only [extractItem, hskip, if_pos] at hkeep
      rw [keepItem_empty] at hkeep
      exact Bool.false_ne_true hkeep
    · have hns : shouldSkip q = false := by
        by_contra hns
        have hskip : shouldSkip q = true := by
          cases h : shouldSkip q
          · exact absurd h hns
          · rfl
        rw [he] at hkeep
        simp only [extractItem, hskip, if_pos] at hkeep
        rw [keepItem_empty] at hkeep
        exact Bool.false_ne_true hkeep
      rw [he]
      simp [extractItem, hns, getSafeText]
    · rw [he] at hkeep
      rw [he]
      exact of_decide_eq_true hkeep
  · exact List.Pairwise.filter _ pairwise_extractMapGo

/-! ## Structural Chunker (docxHandler.ts lines 54-81) -/

/-- The case-insensitive style-name test of `isHeading` (line 59):
`/heading|title|subtitle|chapter|part/i.test(val)`, i.e. the lower-cased
name contains one of the alternatives. -/
def headingStyleVal (val : String) : Bool :=
  containsSub (lowerStr val) "heading" || containsSub (lowerStr val) "title" ||
    containsSub (lowerStr val) "subtitle" || containsSub (lowerStr val) "chapter" ||
    containsSub (lowerStr val) "part"

/-- `isHeading` (line 54): look the paragraph up by index and test its style
name; every `?.` miss in the `pPr`/`pStyle`/`w:val` chain yields false. -/
def isHeading (paras : List Para) (index : Nat) : Bool :=
  match paras[index]? with
  | none => false
  | some p =>
    match p.style with
    | none => false
    | some val => headingStyleVal val

/-- `TARGET_CHUNK_SIZE` (line 66). -/
def TARGET_CHUNK_SIZE : Nat := 3000

/-- The loop of `createChunks` (lines 68-79), with the mutable
`currentChunk` / `currentChunkLen` accumulators made explicit. -/
def createChunksGo (paras : List Para) :
    List Item → List Item → Nat → List (List Item)
  | [], currentChunk, _ =>
    if 0 < currentChunk.length then [currentChunk] else []
  | item :: rest, currentChunk, currentChunkLen =>
    if 0 < currentChunk.length ∧
        (isHeading paras item.id = true ∨ TARGET_CHUNK_SIZE ≤ currentChunkLen) then
      currentChunk :: createChunksGo paras rest [item] item.text.length
    else
      createChunksGo paras rest (currentChunk ++ [item]) (currentChunkLen + item.text.length)

/-- `createChunks` (docxHandler.ts line 62). -/
def createChunks (paras : List Para) (items : List Item) : List (List Item) :=
  createChunksGo paras items [] 0

/-- Accumulated character length of a chunk, matching how `currentChunkLen`
sums `item.text.length` over the appended items. -/
def sumLen (chunk : List Item) : Nat :=
  (chunk.map fun it => it.text.length).sum

/-- A legal boundary between consecutive emitted batches: the later batch
starts at a heading, or the earlier batch's accumulated length had reached
the 3000-character target. -/
def boundaryOk (paras : List Para) (b bNext : List Item) : Prop :=
  ∀ it, bNext.head? = some it →
    isHeading paras it.id = true ∨ TARGET_CHUNK_SIZE ≤ sumLen b

/-- No interior position of an emitted batch triggered a break: every item
after the batch's first is a non-heading appended while the accumulated
length was still below the target. -/
def interiorOk (paras : List Para) (b : List Item) : Prop :=
  ∀ j, 0 < j → ∀ it, b[j]? = some it →
    isHeading paras it.id = false ∧ sumLen (b.take j) < TARGET_CHUNK_SIZE

theorem sumLen_append (a b : List Item) : sumLen (a ++ b) = sumLen a + sumLen b := by
  simp [sumLen]

theorem createChunksGo_flatten (paras : List Para) :
    ∀ (items currentChunk : List Item) (len : Nat),
      (createChunksGo paras items currentChunk len).flatten = currentChunk ++ items := by
  intro items
  induction items with
  | nil =>
    intro cur len
    by_cases h : 0 < cur.length
    · simp [createChunksGo, h]
    · have : cur = [] := by
        cases cur with
        | nil => rfl
        | cons a as => simp at h
      simp [createChunksGo, h, this]
  | cons item rest ih =>
    intro cur len
    by_cases h : 0 < cur.length ∧
        (isHeading paras item.id = true ∨ TARGET_CHUNK_SIZE ≤ len)
    · simp [createChunksGo, h, ih]
    · simp [createChunksGo, h, ih]

theorem createChunksGo_ne_nil (paras : List Para) :
    ∀ (items currentChunk : List Item) (len : Nat) (b : List Item),
      b ∈ createChunksGo paras items currentChunk len → b ≠ [] := by
  intro items
  induction items with
  | nil =>
    intro cur len b hb
    by_cases h : 0 < cur.length
    · simp [createChunksGo, h] at hb
      subst hb
      intro hnil
      rw [hnil] at h
      simp at h
    · simp [createChunksGo, h] at hb
  | cons item rest ih =>
    intro cur len b hb
    by_cases h : 0 < cur.length ∧
        (isHeading paras item.id = true ∨ TARGET_CHUNK_SIZE ≤ len)
    · simp only [createChunksGo, if_pos h, List.mem_cons] at hb
      rcases hb with hb | hb
      · subst hb
        intro hnil
        rw [hnil] at h
        simp at h
      · exact ih _ _ _ hb
    · simp only [createChunksGo, if_neg h] at hb
      exact ih _ _ _ hb

theorem createChunksGo_head (paras : List Para) :
    ∀ (items currentChunk : List Item) (len : Nat), currentChunk ≠ [] →
      ∃ d t, createChunksGo paras items currentChunk len = (currentChunk ++ d) :: t := by
  intro items
  induction items with
  | nil =>
    intro cur len hne
    have h : 0 < cur.length := List.length_pos.2 hne
    exact ⟨[], [], by simp [createChunksGo, h]⟩
  | cons item rest ih =>
    intro cur len hne
    by_cases h : 0 < cur.length ∧
        (isHeading paras item.id = true ∨ TARGET_CHUNK_SIZE ≤ len)
    · exact ⟨[], createChunksGo paras rest [item] item.text.length, by
        simp [createChunksGo, h]⟩
    · obtain ⟨d, t, hd⟩ := ih (cur ++ [item]) (len + item.text.length) (by simp)
      exact ⟨item :: d, t, by simp only [createChunksGo, if_neg h, hd]; simp⟩

theorem createChunksGo_chain (paras : List Para) :
    ∀ (items currentChunk : List Item),
      List.Chain' (boundaryOk paras)
        (createChunksGo paras items currentChunk (sumLen currentChunk)) := by
  intro items
  induction items with
  | nil =>
    intro cur
    by_cases h : 0 < cur.length
    · simp [createChunksGo, h]
    · simp [createChunksGo, h]
  | cons item rest ih =>
    intro cur
    by_cases h : 0 < cur.length ∧
        (isHeading paras item.id = true ∨ TARGET_CHUNK_SIZE ≤ sumLen cur)
    · rw [createChunksGo, if_pos h]
      have hitem : item.text.length = sumLen [item] := by simp [sumLen]
      refine List.chain'_cons'.2 ⟨?_, by rw [hitem]; exact ih [item]⟩
      intro y hy
      obtain ⟨d, t, hd⟩ := createChunksGo_head paras rest [item] (sumLen [item])
        (by simp)
      rw [hitem, hd] at hy
      simp only [List.head?_cons, Option.mem_def, Option.some.injEq] at hy
      intro it hit
      rw [← hy] at hit
      simp only [List.cons_append, List.head?_cons, Option.some.injEq] at hit
      rw [← hit]
      exact h.2
    · rw [createChunksGo, if_neg h]
      have : sumLen cur + item.text.length = sumLen (cur ++ [item]) := by
        simp [sumLen]
      rw [this]
      exact ih (cur ++ [item])

theorem interiorOk_singleton (paras : List Para) (it : Item) :
    interiorOk paras [it] := by
  intro j hj it' hit'
  rcases j with _ | j
  · omega
  · simp at hit'

theorem interiorOk_append (paras : List Para) (cur : List Item) (item : Item)
    (hcur : interiorOk paras cur)
    (hno : ¬(0 < cur.length ∧
      (isHeading paras item.id = true ∨ TARGET_CHUNK_SIZE ≤ sumLen cur))) :
    interiorOk paras (cur ++ [item]) := by
  intro j hj it hit
  rcases lt_trichotomy j cur.length with hlt | heq | hgt
  · have hit' : cur[j]? = some it := by
      rw [List.getElem?_append_left hlt] at hit
      exact hit
    have htake : (cur ++ [item]).take j = cur.take j := by
      rw [List.take_append_eq_append_take]
      have : j - cur.length = 0 := by omega
      rw [this]
      simp
    rw [htake]
    exact hcur j hj it hit'
  · have hpos : 0 < cur.length := by omega
    have hcond : ¬(isHeading paras item.id = true ∨ TARGET_CHUNK_SIZE ≤ sumLen cur) := by
      intro hc
      exact hno ⟨hpos, hc⟩
    push_neg at hcond
    have hit' : it = item := by
      rw [heq] at hit
      rw [List.getElem?_append_right (Nat.le_refl _)] at hit
      simp at hit
      exact hit.symm
    have htake : (cur ++ [item]).take j = cur := by
      rw [heq, List.take_append_eq_append_take]
      simp
    constructor
    · rw [hit']
      cases hh : isHeading paras item.id
      · rfl
      · exact absurd hh hcond.1
    · rw [htake]
      omega
  · exfalso
    have : (cur ++ [item])[j]? = none := by
      apply List.getElem?_eq_none
      simp
      omega
    rw [this] at hit
    exact Option.noConfusion hit

theorem createChunksGo_interior (paras : List Para) :
    ∀ (items currentChunk : List Item), interiorOk paras currentChunk →
      ∀ b ∈ createChunksGo paras items currentChunk (sumLen currentChunk),
        interiorOk paras b := by
  intro items
  induction items with
  | nil =>
    intro cur hcur b hb
    by_cases h : 0 < cur.length
    · simp [createChunksGo, h] at hb
      rw [hb]
      exact hcur
    · simp [createChunksGo, h] at hb
  | cons item rest ih =>
    intro cur hcur b hb
    by_cases h : 0 < cur.length ∧
        (isHeading paras item.id = true ∨ TARGET_CHUNK_SIZE ≤ sumLen cur)
    · rw [createChunksGo, if_pos h] at hb
      rcases (List.mem_cons).1 hb with hb | hb
      · rw [hb]; exact hcur
      · have hitem : item.text.length = sumLen [item] := by simp [sumLen]
        rw [hitem] at hb
        exact ih [item] (interiorOk_singleton paras item) b hb
    · rw [createChunksGo, if_neg h] at hb
      have hsum : sumLen cur + item.text.length = sumLen (cur ++ [item]) := by
        simp [sumLen]
      rw [hsum] at hb
      exact ih (cur ++ [item]) (interiorOk_append paras cur item hcur h) b hb

theorem interiorOk_nil_chunk (paras : List Para) : interiorOk paras [] := by
  intro j hj it hit
  simp at hit

/-- C4: the Chunker starts a new batch immediately before an item iff the
current batch is non-empty and the item is a heading or the accumulated
length has reached 3000: every emitted batch is non-empty, every boundary
between consecutive batches is justified by a heading or a reached target
(`boundaryOk`), no interior item of a batch is a heading or was appended at
accumulated length ≥ 3000 (`interiorOk`, so a single over-long non-heading
item is accepted whole), and the batches concatenate back to the input, so
the final partial batch is always emitted and no item is split. -/
theorem c4 (paras : List Para) (items : List Item) :
    (∀ b ∈ createChunks paras items, b ≠ []) ∧
    List.Chain' (boundaryOk paras) (createChunks paras items) ∧
    (∀ b ∈ createChunks paras items, interiorOk paras b) ∧
    (createChunks paras items).flatten = items := by
  refine ⟨?_, ?_, ?_, ?_⟩
  · intro b hb
    exact createChunksGo_ne_nil paras items [] 0 b hb
  · have := createChunksGo_chain paras items []
    simpa [sumLen] using this
  · intro b hb
    have h0 : (0 : Nat) = sumLen [] := by simp [sumLen]
    rw [createChunks, h0] at hb
    exact createChunksGo_interior paras items [] (interiorOk_nil_chunk paras) b hb
  · simpa using createChunksGo_flatten paras items [] 0

/-- C6: concatenating the id sequences of the emitted batches, in emission
order, reproduces exactly the input id sequence: the Chunker is an
order-preserving partition of the Extractor's output. -/
theorem c6 (paras : List Para) (items : List Item) :
    ((createChunks paras items).map (fun b => b.map fun it => it.id)).flatten =
      items.map fun it => it.id := by
  have h := createChunksGo_flatten paras items [] 0
  rw [createChunks]
  rw [← List.map_flatten, h]
  simp

/-! ## Reassembler (docxHandler.ts lines 137-152, applyTranslations)

The Translation Result Map is a JS Map with unique numeric keys; its
`forEach` visits entries in insertion order, so the map is embedded as an
association list with pairwise-distinct keys applied left to right. -/

/-- Clearing of one subsequent node in the loop of line 147: only the `w:t`
descendants are in `textNodes`, so only they are emptied. -/
def clearRun (c : Child) : Child :=
  if c.isT then { c with content := "" } else c

/-- The mutation of lines 145-149 on the ordered child list: the first `w:t`
child receives the full translated text and the preserve-space attribute;
every later `w:t` child is emptied; non-`w:t` children are untouched. -/
def replaceRuns : List Child → String → List Child
  | [], _ => []
  | c :: rest, t =>
    if c.isT then
      { c with content := t, preserveSpace := true } :: rest.map clearRun
    else
      c :: replaceRuns rest t

/-- The per-paragraph body of `applyTranslations` after the `textNodes`
lookup: with at least one `w:t` descendant the runs are rewritten
(lines 142-150), otherwise the paragraph is untouched. -/
def applyToPara (p : Para) (t : String) : Para :=
  if 0 < (p.children.filter fun c => c.isT).length then
    { p with children := replaceRuns p.children t }
  else p

/-- One `forEach` step of `applyTranslations`: a falsy (empty) translated
text returns early (line 139); otherwise the paragraph at the entry's index
is rewritten in place.  A key outside the paragraph range would make the
source throw on the undefined node; the claims only concern in-range keys,
and the model leaves such an entry without effect. -/
def applyEntry (paras : List Para) (entry : Nat × String) : List Para :=
  if entry.2 = "" then paras
  else
    match paras[entry.1]? with
    | none => paras
    | some p => paras.set entry.1 (applyToPara p entry.2)

/-- `applyTranslations` (docxHandler.ts line 137): the Result Map's entries
applied in iteration order. -/
def applyTranslations (paras : List Para) (entries : List (Nat × String)) : List Para :=
  entries.foldl applyEntry paras

theorem applyEntry_getElem_ne (paras : List Para) (entry : Nat × String) (i : Nat)
    (hne : entry.1 ≠ i) : (applyEntry paras entry)[i]? = paras[i]? := by
  unfold applyEntry
  split
  · rfl
  · split
    · rfl
    · exact List.getElem?_set_ne hne

theorem applyEntry_getElem_self (paras : List Para) (i : Nat) (t : String) :
    (applyEntry paras (i, t))[i]? =
      if t = "" then paras[i]? else (paras[i]?).map fun p => applyToPara p t := by
  unfold applyEntry
  by_cases ht : t = ""
  · simp [ht]
  · simp only [ht, if_neg, if_false]
    cases hp : paras[i]? with
    | none => simp [hp]
    | some p =>
      simp only [hp]
      rw [List.getElem?_set_self', hp]
      rfl

theorem applyTranslations_getElem_of_not_mem (entries : List (Nat × String)) :
    ∀ (paras : List Para) (i : Nat), (∀ t, (i, t) ∉ entries) →
      (applyTranslations paras entries)[i]? = paras[i]? := by
  induction entries with
  | nil => intro paras i _; rfl
  | cons e rest ih =>
    intro paras i hnot
    have h1 : (applyTranslations (applyEntry paras e) rest)[i]? =
        (applyEntry paras e)[i]? := by
      apply ih
      intro t ht
      exact hnot t (List.mem_cons_of_mem e ht)
    have h2 : e.1 ≠ i := by
      intro he
      exact hnot e.2 (by rw [← he]; exact List.mem_cons_self e rest)
    calc (applyTranslations paras (e :: rest))[i]?
        = (applyTranslations (applyEntry paras e) rest)[i]? := rfl
      _ = (applyEntry paras e)[i]? := h1
      _ = paras[i]? := applyEntry_getElem_ne paras e i h2

theorem applyTranslations_getElem_of_mem (entries : List (Nat × String)) :
    ∀ (paras : List Para) (i : Nat) (t : String),
      (entries.map Prod.fst).Nodup → (i, t) ∈ entries →
      (applyTranslations paras entries)[i]? = (applyEntry paras (i, t))[i]? := by
  induction entries with
  | nil => intro _ _ _ _ hmem; simp at hmem
  | cons e rest ih =>
    intro paras i t hnd hmem
    have hnd' : (rest.map Prod.fst).Nodup := (List.nodup_cons.1 hnd).2
    rcases (List.mem_cons).1 hmem with he | hrest
    · subst he
      show (applyTranslations (applyEntry paras (i, t)) rest)[i]? = _
      apply applyTranslations_getElem_of_not_mem
      intro t' ht'
      have : i ∈ rest.map Prod.fst := by
        exact List.mem_map.2 ⟨(i, t'), ht', rfl⟩
      exact (List.nodup_cons.1 hnd).1 this
    · have h2 : e.1 ≠ i := by
        intro he
        have : i ∈ rest.map Prod.fst := List.mem_map.2 ⟨(i, t), hrest, rfl⟩
        rw [← he] at this
        exact (List.nodup_cons.1 hnd).1 this
      calc (applyTranslations paras (e :: rest))[i]?
          = (applyTranslations (applyEntry paras e) rest)[i]? := rfl
        _ = (applyEntry (applyEntry paras e) (i, t))[i]? := ih _ i t hnd' hrest
        _ = (applyEntry paras (i, t))[i]? := by
            rw [applyEntry_getElem_self, applyEntry_getElem_self,
              applyEntry_getElem_ne paras e i h2]

theorem replaceRuns_decomp (t : String) :
    ∀ (pre : List Child) (c : Child) (post : List Child),
      (∀ c' ∈ pre, c'.isT = false) → c.isT = true →
      replaceRuns (pre ++ c :: post) t =
        pre ++ { c with content := t, preserveSpace := true } :: post.map clearRun := by
  intro pre
  induction pre with
  | nil =>
    intro c post _ hc
    simp [replaceRuns, hc]
  | cons a as ih =>
    intro c post hpre hc
    have ha : a.isT = false := hpre a (List.mem_cons_self a as)
    have hih := ih c post (fun c' hc' => hpre c' (List.mem_cons_of_mem a hc')) hc
    show replaceRuns (a :: (as ++ c :: post)) t = _
    simp only [replaceRuns, ha, Bool.false_eq_true, if_false, hih]
    simp

/-- C2: for an entry (id, t) of the Result Map with t non-empty, a paragraph
at that id having at least one text-run child gets the full translated text
in its first text run (with the preserve-space mark), every subsequent text
run emptied and every non-text-run child untouched; a paragraph with no
text-run child is left untouched, and an empty-string entry leaves the
paragraph's original content unchanged. -/
theorem c2 (paras : List Para) (entries : List (Nat × String)) (i : Nat) (t : String)
    (p : Para) (hnd : (entries.map Prod.fst).Nodup) (hmem : (i, t) ∈ entries)
    (hp : paras[i]? = some p) :
    (t ≠ "" → (∀ pre c post, p.children = pre ++ c :: post →
        (∀ c' ∈ pre, c'.isT = false) → c.isT = true →
        (applyTranslations paras entries)[i]? =
          some (Para.mk
            (pre ++ { c with content := t, preserveSpace := true } :: post.map clearRun)
            p.style)) ∧
      ((∀ c ∈ p.children, c.isT = false) →
        (applyTranslations paras entries)[i]? = some p)) ∧
    (t = "" → (applyTranslations paras entries)[i]? = some p) := by
  have hkey := applyTranslations_getElem_of_mem entries paras i t hnd hmem
  constructor
  · intro ht
    constructor
    · intro pre c post hdecomp hpre hc
      rw [hkey, applyEntry_getElem_self, if_neg ht, hp]
      have hlen : 0 < (p.children.filter fun x => x.isT).length := by
        rw [hdecomp]
        have : c ∈ (pre ++ c :: post).filter fun x => x.isT :=
          List.mem_filter.2 ⟨by simp, hc⟩
        exact List.length_pos.2 (fun hnil => by rw [hnil] at this; simp at this)
      show some (applyToPara p t) = _
      unfold applyToPara
      rw [if_pos hlen]
      rw [hdecomp, replaceRuns_decomp t pre c post hpre hc]
    · intro hall
      rw [hkey, applyEntry_getElem_self, if_neg ht, hp]
      show some (applyToPara p t) = _
      unfold applyToPara
      have hlen : ¬ 0 < (p.children.filter fun x => x.isT).length := by
        intro hpos
        obtain ⟨c, hc⟩ := List.exists_mem_of_length_pos hpos
        rcases List.mem_filter.1 hc with ⟨hcm, hct⟩
        rw [hall c hcm] at hct
        exact Bool.false_ne_true hct
      rw [if_neg hlen]
  · intro ht
    rw [hkey, applyEntry_getElem_self, if_pos ht]
    exact hp

/-- C2 witness: a two-run paragraph receives the translation in its first
run (marked preserve-space) with the second run cleared. -/
theorem c2_witness :
    ((" hi " ≠ "" → (∀ pre c post,
        [Child.mk false "instr" false, Child.mk true "old1" false,
          Child.mk true "old2" false] = pre ++ c :: post →
        (∀ c' ∈ pre, c'.isT = false) → c.isT = true →
        (applyTranslations
            [Para.mk [Child.mk false "instr" false, Child.mk true "old1" false,
              Child.mk true "old2" false] none] [(0, " hi ")])[0]? =
          some (Para.mk
            (pre ++ { c with content := " hi ", preserveSpace := true } ::
              post.map clearRun)
            none)) ∧
      ((∀ c ∈ [Child.mk false "instr" false, Child.mk true "old1" false,
          Child.mk true "old2" false], c.isT = false) →
        (applyTranslations
            [Para.mk [Child.mk false "instr" false, Child.mk true "old1" false,
              Child.mk true "old2" false] none] [(0, " hi ")])[0]? =
          some (Para.mk [Child.mk false "instr" false, Child.mk true "old1" false,
            Child.mk true "old2" false] none))) ∧
    (" hi " = "" →
      (applyTranslations
          [Para.mk [Child.mk false "instr" false, Child.mk true "old1" false,
            Child.mk true "old2" false] none] [(0, " hi ")])[0]? =
        some (Para.mk [Child.mk false "instr" false, Child.mk true "old1" false,
          Child.mk true "old2" false] none))) :=
  c2 [Para.mk [Child.mk false "instr" false, Child.mk true "old1" false,
      Child.mk true "old2" false] none]
    [(0, " hi ")] 0 " hi "
    (Para.mk [Child.mk false "instr" false, Child.mk true "old1" false,
      Child.mk true "old2" false] none)
    (by decide) (by decide) (by decide)

/-- C8: a Result Map that is empty or all of whose values are empty strings
leaves every paragraph node unchanged, and more generally any paragraph
whose id has no non-empty entry in the map keeps its original node. -/
theorem c8 (paras : List Para) (entries : List (Nat × String)) :
    ((∀ e ∈ entries, e.2 = "") → applyTranslations paras entries = paras) ∧
    (∀ i, (∀ t, (i, t) ∈ entries → t = "") →
      (applyTranslations paras entries)[i]? = paras[i]?) := by
  constructor
  · intro hall
    induction entries generalizing paras with
    | nil => rfl
    | cons e rest ih =>
      have he : applyEntry paras e = paras := by
        unfold applyEntry
        rw [if_pos (hall e (List.mem_cons_self e rest))]
      show applyTranslations (applyEntry paras e) rest = paras
      rw [he]
      exact ih paras (fun e' he' => hall e' (List.mem_cons_of_mem e he'))
  · intro i hi
    induction entries generalizing paras with
    | nil => rfl
    | cons e rest ih =>
      show (applyTranslations (applyEntry paras e) rest)[i]? = paras[i]?
      by_cases hei : e.1 = i
      · have : e.2 = "" := hi e.2 (by rw [← hei]; exact List.mem_cons_self e rest)
        have he : applyEntry paras e = paras := by
          unfold applyEntry
          rw [if_pos this]
        rw [he]
        exact ih paras (fun t ht => hi t (List.mem_cons_of_mem e ht))
      · rw [ih (applyEntry paras e) (fun t ht => hi t (List.mem_cons_of_mem e ht))]
        exact applyEntry_getElem_ne paras e i hei

/-! ## Translation Dispatcher (docxHandler.ts lines 95-125)

The external translate call is a parameter `Nat → Except String α` giving
each attempt's outcome (`attempt` is the value of `retries` when the call is
made, i.e. attempt k+1 has `attempt = k`); `await delay(ms)` is recorded by
pushing `ms` on a delay trace.  The small fixed `delay(800)` after a success
is not part of the backoff trace. -/

/-- `MAX_RETRIES` (line 101). -/
def MAX_RETRIES : Nat := 5

/-- The rate-limit classification of line 113:
`errorMessage.includes("429") || errorMessage.includes("RESOURCE_EXHAUSTED")`. -/
def isRateLimitMsg (errorMessage : String) : Bool :=
  containsSub errorMessage "429" || containsSub errorMessage "RESOURCE_EXHAUSTED"

/-- The wait-time computation of line 115, with `retries` already
incremented for the current failure (so the k-th failure passes
`retries = k`): `5000 * 2 ** (retries - 1)` for rate limits, `2000 * retries`
otherwise. -/
def backoffWaitTime (errorMessage : String) (retries : Nat) : Nat :=
  if isRateLimitMsg errorMessage then 5000 * 2 ^ (retries - 1) else 2000 * retries

/-- Outcome of one batch's retry loop: success or the terminal thrown error,
each carrying the backoff delays awaited along the way, in order. -/
inductive BatchOutcome (α : Type) where
  | ok (delays : List Nat) (value : α)
  | fatal (delays : List Nat) (message : String)
deriving Repr, DecidableEq

/-- The `while (retries < MAX_RETRIES && !batchSuccess)` loop of
lines 103-124, from a given `retries` value, accumulating issued delays in
reverse.  The `else` branch is the loop exiting with neither success nor
throw; starting from `retries = 0` it is unreachable, because the throw of
line 118 fires exactly when `retries` reaches `MAX_RETRIES`. -/
def runBatchFrom (call : Nat → Except String α) (retries : Nat) (delays : List Nat) :
    BatchOutcome α :=
  if h : retries < MAX_RETRIES then
    match call retries with
    | .ok v => .ok delays.reverse v
    | .error errorMessage =>
      let waitTime := backoffWaitTime errorMessage (retries + 1)
      if MAX_RETRIES ≤ retries + 1 then
        .fatal delays.reverse
          ("Failed to translate batch after " ++ toString MAX_RETRIES ++
            " attempts. Error: " ++ errorMessage)
      else
        runBatchFrom call (retries + 1) (waitTime :: delays)
  else
    .fatal delays.reverse "loop exited without success"
termination_by MAX_RETRIES - retries
decreasing_by omega

/-- One batch's retry loop as entered by `processAndTranslate`
(`retries = 0`, no delay issued yet). -/
def runBatch (call : Nat → Except String α) : BatchOutcome α :=
  runBatchFrom call 0 []

/-- A translate call that fails deterministically on the first `n` attempts
with message `msg` and then succeeds with `res`. -/
def callFailN (n : Nat) (msg : String) (res : α) : Nat → Except String α :=
  fun attempt => if attempt < n then .error msg else .ok res

/-- The chunk loop of `processAndTranslate` (lines 95-125): batches are
dispatched strictly in order, each batch's per-item results are kept on
success, and a batch whose retries are exhausted throws, aborting the whole
pipeline with that terminal error and producing no output value. -/
def runPipeline (call : β → Nat → Except String α) : List β → Except String (List α)
  | [] => .ok []
  | chunk :: rest =>
    match runBatch (call chunk) with
    | .ok _ v =>
      match runPipeline call rest with
      | .ok vs => .ok (v :: vs)
      | .error m => .error m
    | .fatal _ m => .error m

theorem runBatchFrom_failN_ok {α : Type} (n : Nat) (msg : String) (res : α)
    (hn : n < MAX_RETRIES) :
    ∀ (k r : Nat) (ds : List Nat), n - r = k → r ≤ n →
      runBatchFrom (callFailN n msg res) r ds =
        .ok (ds.reverse ++ (List.range' (r + 1) (n - r)).map (backoffWaitTime msg)) res := by
  intro k
  induction k with
  | zero =>
    intro r ds hk hr
    have hrn : r = n := by omega
    subst hrn
    rw [runBatchFrom]
    have h1 : r < MAX_RETRIES := hn
    rw [dif_pos h1]
    have hcall : callFailN r msg res r = .ok res := by
      unfold callFailN
      rw [if_neg (by omega)]
    rw [hcall]
    simp
  | succ k ih =>
    intro r ds hk hr
    have hrn : r < n := by omega
    rw [runBatchFrom]
    rw [dif_pos (by omega : r < MAX_RETRIES)]
    have hcall : callFailN n msg res r = .error msg := by
      unfold callFailN
      rw [if_pos hrn]
    rw [hcall]
    simp only
    rw [if_neg (by omega : ¬ MAX_RETRIES ≤ r + 1)]
    rw [ih (r + 1) (backoffWaitTime msg (r + 1) :: ds) (by omega) (by omega)]
    have hrange : List.range' (r + 1) (n - r) =
        (r + 1) :: List.range' (r + 2) (n - (r + 1)) := by
      have : n - r = (n - (r + 1)) + 1 := by omega
      rw [this, List.range'_succ]
    rw [hrange]
    simp

theorem runBatchFrom_failN_fatal {α : Type} (n : Nat) (msg : String) (res : α)
    (hn : MAX_RETRIES ≤ n) :
    ∀ (k r : Nat) (ds : List Nat), MAX_RETRIES - r = k + 1 → r < MAX_RETRIES →
      runBatchFrom (callFailN n msg res) r ds =
        .fatal (ds.reverse ++
            (List.range' (r + 1) (MAX_RETRIES - 1 - r)).map (backoffWaitTime msg))
          ("Failed to translate batch after " ++ toString MAX_RETRIES ++
            " attempts. Error: " ++ msg) := by
  intro k
  induction k with
  | zero =>
    intro r ds hk hr
    have hrn : r + 1 = MAX_RETRIES := by omega
    rw [runBatchFrom, dif_pos hr]
    have hcall : callFailN n msg res r = .error msg := by
      unfold callFailN
      rw [if_pos (by omega)]
    rw [hcall]
    simp only
    rw [if_pos (by omega : MAX_RETRIES ≤ r + 1)]
    have : MAX_RETRIES - 1 - r = 0 := by omega
    rw [this]
    simp
  | succ k ih =>
    intro r ds hk hr
    rw [runBatchFrom, dif_pos hr]
    have hcall : callFailN n msg res r = .error msg := by
      unfold callFailN
      rw [if_pos (by omega)]
    rw [hcall]
    simp only
    rw [if_neg (by omega : ¬ MAX_RETRIES ≤ r + 1)]
    rw [ih (r + 1) (backoffWaitTime msg (r + 1) :: ds) (by omega) (by omega)]
    have hrange : List.range' (r + 1) (MAX_RETRIES - 1 - r) =
        (r + 1) :: List.range' (r + 2) (MAX_RETRIES - 1 - (r + 1)) := by
      have : MAX_RETRIES - 1 - r = (MAX_RETRIES - 1 - (r + 1)) + 1 := by omega
      rw [this, List.range'_succ]
    rw [hrange]
    simp

theorem backoffWaitTime_mono (msg : String) (k : Nat) (h1 : 1 ≤ k) :
    backoffWaitTime msg k ≤ backoffWaitTime msg (k + 1) := by
  unfold backoffWaitTime
  split
  · apply Nat.mul_le_mul_left
    exact Nat.pow_le_pow_right (by omega) (by omega)
  · omega

theorem chain'_backoff (msg : String) :
    ∀ (cnt s : Nat), 1 ≤ s →
      List.Chain' (fun a b => a ≤ b) ((List.range' s cnt).map (backoffWaitTime msg)) := by
  intro cnt
  induction cnt with
  | zero => intro s _; simp
  | succ cnt ih =>
    intro s hs
    rw [List.range'_succ]
    cases cnt with
    | zero => simp
    | succ cnt' =>
      rw [List.map_cons]
      refine List.chain'_cons'.2 ⟨?_, ih (s + 1) (by omega)⟩
      intro y hy
      rw [List.range'_succ, List.map_cons, List.head?_cons,
        Option.mem_def, Option.some.injEq] at hy
      rw [← hy]
      exact backoffWaitTime_mono msg s hs

/-- C3: against a translate call that fails deterministically N times and
then succeeds, the Dispatcher's retry loop succeeds iff N is below the
maximum attempt count of 5, and on success it has issued exactly N backoff
delays of non-decreasing duration before the successful attempt; when all
attempts fail, the loop throws a terminal error carrying the last attempt's
message and the whole chunk pipeline aborts with that error, producing no
output value. -/
theorem c3 {α : Type} (n : Nat) (msg : String) (res : α) :
    ((∃ ds v, runBatch (callFailN n msg res) = .ok ds v) ↔ n < MAX_RETRIES) ∧
    (n < MAX_RETRIES →
      runBatch (callFailN n msg res) =
        .ok ((List.range' 1 n).map (backoffWaitTime msg)) res ∧
      ((List.range' 1 n).map (backoffWaitTime msg)).length = n ∧
      List.Chain' (fun a b => a ≤ b) ((List.range' 1 n).map (backoffWaitTime msg))) ∧
    (MAX_RETRIES ≤ n →
      runBatch (callFailN n msg res) =
        .fatal ((List.range' 1 (MAX_RETRIES - 1)).map (backoffWaitTime msg))
          ("Failed to translate batch after " ++ toString MAX_RETRIES ++
            " attempts. Error: " ++ msg) ∧
      ∀ (pre post : List (List Item)) (call : List Item → Nat → Except String α)
        (c : List Item),
        (∀ b ∈ pre, ∃ ds v, runBatch (call b) = BatchOutcome.ok ds v) →
        call c = callFailN n msg res →
        runPipeline call (pre ++ c :: post) =
          .error ("Failed to translate batch after " ++ toString MAX_RETRIES ++
            " attempts. Error: " ++ msg)) := by
  have hok : n < MAX_RETRIES →
      runBatch (callFailN n msg res) =
        .ok ((List.range' 1 n).map (backoffWaitTime msg)) res := by
    intro hn
    have := runBatchFrom_failN_ok n msg res hn n 0 [] rfl (by omega)
    simpa using this
  have hfatal : MAX_RETRIES ≤ n →
      runBatch (callFailN n msg res) =
        .fatal ((List.range' 1 (MAX_RETRIES - 1)).map (backoffWaitTime msg))
          ("Failed to translate batch after " ++ toString MAX_RETRIES ++
            " attempts. Error: " ++ msg) := by
    intro hn
    have := runBatchFrom_failN_fatal n msg res hn (MAX_RETRIES - 1) 0 [] (by decide)
      (by decide)
    simpa using this
  refine ⟨⟨?_, ?_⟩, ?_, ?_⟩
  · rintro ⟨ds, v, hds⟩
    by_contra hge
    rw [hfatal (by omega)] at hds
    exact BatchOutcome.noConfusion hds
  · intro hn
    exact ⟨_, _, hok hn⟩
  · intro hn
    refine ⟨hok hn, by simp, chain'_backoff msg n 1 (by omega)⟩
  · intro hn
    refine ⟨hfatal hn, ?_⟩
    intro pre post call c hpre hcall
    induction pre with
    | nil =>
      show runPipeline call (c :: post) = _
      unfold runPipeline
      rw [hcall, hfatal hn]
    | cons b bs ih =>
      obtain ⟨ds, v, hb⟩ := hpre b (List.mem_cons_self b bs)
      show runPipeline call (b :: (bs ++ c :: post)) = _
      unfold runPipeline
      rw [hb]
      rw [ih (fun b' hb' => hpre b' (List.mem_cons_of_mem b hb'))]

/-- C7: on the k-th failed attempt (1 ≤ k, delays counted before the next
retry) the Dispatcher waits 5000·2^(k−1) ms when the error message signals
rate limiting (contains a 429 or RESOURCE_EXHAUSTED indicator) and 2000·k ms
otherwise, and the issued delay schedule is non-decreasing in k. -/
theorem c7 {α : Type} (msg : String) (res : α) (n k : Nat)
    (h1 : 1 ≤ k) (hkn : k ≤ n) (hn : n < MAX_RETRIES) :
    ∃ ds, runBatch (callFailN n msg res) = .ok ds res ∧
      ds[k - 1]? =
        some (if isRateLimitMsg msg = true then 5000 * 2 ^ (k - 1) else 2000 * k) ∧
      List.Chain' (fun a b => a ≤ b) ds := by
  refine ⟨(List.range' 1 n).map (backoffWaitTime msg), ?_, ?_, ?_⟩
  · have := runBatchFrom_failN_ok n msg res hn n 0 [] rfl (by omega)
    simpa using this
  · rw [List.getElem?_map]
    have hr : (List.range' 1 n)[k - 1]? = some k := by
      rw [List.getElem?_range' _ _ (by omega)]
      congr 1
      omega
    rw [hr]
    simp only [Option.map_some']
    rfl
  · exact chain'_backoff msg n 1 (by omega)

/-- C7 witness: two rate-limited failures then success; the first backoff is
5000·2^0 = 5000 ms and the schedule is non-decreasing. -/
theorem c7_witness :
    ∃ ds, runBatch (callFailN 2 "HTTP 429 too many requests" "done") = .ok ds "done" ∧
      ds[1 - 1]? =
        some (if isRateLimitMsg "HTTP 429 too many requests" = true then
          5000 * 2 ^ (1 - 1) else 2000 * 1) ∧
      List.Chain' (fun a b => a ≤ b) ds :=
  c7 "HTTP 429 too many requests" "done" 2 1 (by decide) (by decide) (by decide)

/-! ## Response normalization and parsing (geminiService.ts lines 35-43 and
115-133)

JSON.parse is a host primitive; it is a parameter `String → Option JsonVal`
(`none` models a thrown SyntaxError).  A parsed JS value is a `JsonVal`;
object field lookup models property access, where a missing property is
`undefined` (`none`). -/

/-- A parsed JSON value. -/
inductive JsonVal where
  | null
  | bool (b : Bool)
  | num (n : Int)
  | str (s : String)
  | arr (elems : List JsonVal)
  | obj (fields : List (String × JsonVal))

/-- Property access `v[key]` on a parsed value: defined fields of an object,
`undefined` (`none`) everywhere else.  JSON.parse yields objects with unique
keys, so first match suffices.  Caveat: property access on a JS `null`
throws a TypeError instead of yielding `undefined`; the map-building theorem
therefore assumes the translations array holds no null elements (the
response schema never produces one). -/
def getField (v : JsonVal) (key : String) : Option JsonVal :=
  match v with
  | .obj fields => (fields.find? fun f => f.1 == key).map fun f => f.2
  | _ => none

/-- Models the JS `Number()` coercion applied to `t.id` for the values that
can appear in a parsed response: a numeric value stays itself, `null`
coerces to 0, booleans to 0/1, and an absent field or any other value is
NaN, represented `none` (NaN is a legal JS Map key equal to itself under
SameValueZero).  String-to-number coercion is not modelled: the response
schema constrains `id` to an integer. -/
def jsNumber : Option JsonVal → Option Int
  | some (.num n) => some n
  | some .null => some 0
  | some (.bool b) => some (if b then 1 else 0)
  | _ => none

/-- `Map.set` of the JS result map: an existing key's value is updated in
place, a new key is appended, so insertion order is preserved and keys stay
unique. -/
def mapSet (m : List (Option Int × JsonVal)) (k : Option Int) (v : JsonVal) :
    List (Option Int × JsonVal) :=
  if m.any fun e => decide (e.1 = k) then
    m.map fun e => if e.1 = k then (k, v) else e
  else m ++ [(k, v)]

/-- `Map.get` / membership of the JS result map. -/
def mapLookup (m : List (Option Int × JsonVal)) (k : Option Int) : Option JsonVal :=
  (m.find? fun e => decide (e.1 = k)).map fun e => e.2

/-- One step of the `parsed.translations.forEach` of lines 122-126: an
element whose `translated_text` property is `undefined` is skipped; any
other element sets `Number(t.id) → t.translated_text` in the result map. -/
def addTranslation (m : List (Option Int × JsonVal)) (t : JsonVal) :
    List (Option Int × JsonVal) :=
  match getField t "translated_text" with
  | none => m
  | some v => mapSet m (jsNumber (getField t "id")) v

/-- The `translations` array of a parsed response: the guard of line 121
(`parsed.translations && Array.isArray(parsed.translations)`) leaves the
result map empty when it fails, which the empty element list models.
A falsy-but-present `translations` value is also rejected by that guard;
only an actual array passes `Array.isArray`. -/
def translationsOf (parsed : JsonVal) : List JsonVal :=
  match getField parsed "translations" with
  | some (.arr elems) => elems
  | _ => []

/-- The result map `parseResponse` builds from a successfully parsed
response (lines 119-128). -/
def buildResultMap (parsed : JsonVal) : List (Option Int × JsonVal) :=
  (translationsOf parsed).foldl addTranslation []

/-- `text.indexOf(c)` (first index, `none` for JS -1). -/
def jsIndexOf : List Char → Char → Option Nat
  | [], _ => none
  | a :: rest, c =>
    if a = c then some 0 else (jsIndexOf rest c).map fun n => n + 1

/-- `text.lastIndexOf(c)` (last index, `none` for JS -1). -/
def jsLastIndexOf : List Char → Char → Option Nat
  | [], _ => none
  | a :: rest, c =>
    match jsLastIndexOf rest c with
    | some n => some (n + 1)
    | none => if a = c then some 0 else none

/-- The fallback of `extractJson` line 40, first replace:
`/^```json\s*/` removes a leading literal three-backticks-json fence and the
whitespace after it. -/
def stripLeadFence (l : List Char) : List Char :=
  if isPrefixL ['`', '`', '`', 'j', 's', 'o', 'n'] l then
    (l.drop 7).dropWhile isWs
  else l

/-- The fallback of `extractJson` line 40, second replace: `/\s*```$/`
removes a trailing three-backtick fence and the whitespace before it. -/
def stripTrailFence (l : List Char) : List Char :=
  if isPrefixL ['`', '`', '`'] l.reverse then
    ((l.reverse.drop 3).dropWhile isWs).reverse
  else l

/-- The whole fallback expression of line 40:
strip a leading json fence, strip a trailing fence, then trim. -/
def fenceFallback (l : List Char) : List Char :=
  trimL (stripTrailFence (stripLeadFence l))

/-- `extractJson` (geminiService.ts line 35) on the character list: take the
substring from the first brace to the last closing brace when both exist in
that order, otherwise fall back to fence stripping. -/
def extractJsonL (l : List Char) : List Char :=
  match jsIndexOf l '{', jsLastIndexOf l '}' with
  | some startIndex, some endIndex =>
    if startIndex > endIndex then fenceFallback l
    else (l.take (endIndex + 1)).drop startIndex
  | some _, none => fenceFallback l
  | none, _ => fenceFallback l

/-- `extractJson` at the string level. -/
def extractJson (text : String) : String :=
  String.mk (extractJsonL text.toList)

/-- `parseResponse` (geminiService.ts line 115): normalize, parse with the
host JSON.parse (the `jsonParse` parameter, `none` = throw), build the
result map; a parse failure is caught and re-thrown as the generic
translation error. -/
def parseResponse (jsonParse : String → Option JsonVal) (responseText : String) :
    Except String (List (Option Int × JsonVal)) :=
  match jsonParse (extractJson responseText) with
  | some parsed => .ok (buildResultMap parsed)
  | none => .error "The AI returned an invalid JSON response. Please try again."

/-! ## Index lemmas for extractJson -/

theorem jsIndexOf_spec {l : List Char} {c : Char} {n : Nat}
    (h : jsIndexOf l c = some n) :
    l[n]? = some c ∧ ∀ m, m < n → l[m]? ≠ some c := by
  induction l generalizing n with
  | nil => simp [jsIndexOf] at h
  | cons a rest ih =>
    by_cases hac : a = c
    · rw [jsIndexOf, if_pos hac] at h
      cases h
      subst hac
      exact ⟨by simp, by omega⟩
    · rw [jsIndexOf, if_neg hac] at h
      cases hrec : jsIndexOf rest c with
      | none => rw [hrec] at h; simp at h
      | some n' =>
        rw [hrec] at h
        simp only [Option.map_some', Option.some.injEq] at h
        subst h
        obtain ⟨h1, h2⟩ := ih hrec
        refine ⟨by simpa using h1, ?_⟩
        intro m hm
        cases m with
        | zero =>
          simp only [List.getElem?_cons_zero]
          intro hh
          exact hac (Option.some.injEq _ _ ▸ hh)
        | succ m =>
          simp only [List.getElem?_cons_succ]
          exact h2 m (by omega)

theorem jsIndexOf_complete {l : List Char} {c : Char} {i : Nat}
    (h : l[i]? = some c) : ∃ n, jsIndexOf l c = some n ∧ n ≤ i := by
  induction l generalizing i with
  | nil => simp at h
  | cons a rest ih =>
    by_cases hac : a = c
    · exact ⟨0, by rw [jsIndexOf, if_pos hac], by omega⟩
    · cases i with
      | zero =>
        simp only [List.getElem?_cons_zero, Option.some.injEq] at h
        exact absurd h hac
      | succ i =>
        simp only [List.getElem?_cons_succ] at h
        obtain ⟨n, hn, hni⟩ := ih h
        exact ⟨n + 1, by rw [jsIndexOf, if_neg hac, hn]; rfl, by omega⟩

theorem jsLastIndexOf_complete {l : List Char} {c : Char} {j : Nat}
    (h : l[j]? = some c) : ∃ n, jsLastIndexOf l c = some n ∧ j ≤ n := by
  induction l generalizing j with
  | nil => simp at h
  | cons a rest ih =>
    rw [jsLastIndexOf]
    cases hrec : jsLastIndexOf rest c with
    | some m =>
      refine ⟨m + 1, rfl, ?_⟩
      cases j with
      | zero => omega
      | succ j =>
        simp only [List.getElem?_cons_succ] at h
        obtain ⟨n, hn, hj⟩ := ih h
        rw [hrec] at hn
        cases hn
        omega
    | none =>
      cases j with
      | zero =>
        simp only [List.getElem?_cons_zero, Option.some.injEq] at h
        exact ⟨0, by rw [if_pos h], by omega⟩
      | succ j =>
        simp only [List.getElem?_cons_succ] at h
        obtain ⟨n, hn, _⟩ := ih h
        rw [hrec] at hn
        exact Option.noConfusion hn

theorem jsLastIndexOf_spec {l : List Char} {c : Char} {n : Nat}
    (h : jsLastIndexOf l c = some n) :
    l[n]? = some c ∧ ∀ m, n < m → l[m]? ≠ some c := by
  induction l generalizing n with
  | nil => simp [jsLastIndexOf] at h
  | cons a rest ih =>
    rw [jsLastIndexOf] at h
    cases hrec : jsLastIndexOf rest c with
    | some m =>
      rw [hrec] at h
      cases h
      obtain ⟨h1, h2⟩ := ih hrec
      refine ⟨by simpa using h1, ?_⟩
      intro k hk
      cases k with
      | zero => omega
      | succ k =>
        simp only [List.getElem?_cons_succ]
        exact h2 k (by omega)
    | none =>
      rw [hrec] at h
      by_cases hac : a = c
      · rw [if_pos hac] at h
        cases h
        subst hac
        refine ⟨by simp, ?_⟩
        intro k hk
        cases k with
        | zero => omega
        | succ k =>
          simp only [List.getElem?_cons_succ]
          intro hmem
          obtain ⟨w, hw, _⟩ := jsLastIndexOf_complete hmem
          rw [hrec] at hw
          exact Option.noConfusion hw
      · rw [if_neg hac] at h
        exact Option.noConfusion h

theorem jsIndexOf_eq_none {l : List Char} {c : Char} (h : ∀ a ∈ l, a ≠ c) :
    jsIndexOf l c = none := by
  induction l with
  | nil => rfl
  | cons a rest ih =>
    rw [jsIndexOf, if_neg (h a (List.mem_cons_self a rest))]
    rw [ih fun b hb => h b (List.mem_cons_of_mem a hb)]
    rfl

theorem isPrefixL_append (pre rest : List Char) : isPrefixL pre (pre ++ rest) = true := by
  induction pre with
  | nil => rfl
  | cons a as ih =>
    show isPrefixL (a :: as) (a :: (as ++ rest)) = true
    simp only [isPrefixL, ih]
    simp

theorem dropWhile_append_all {w rest : List Char} (h : ∀ c ∈ w, isWs c = true) :
    (w ++ rest).dropWhile isWs = rest.dropWhile isWs := by
  induction w with
  | nil => rfl
  | cons a as ih =>
    rw [List.cons_append, List.dropWhile_cons, if_pos (h a (List.mem_cons_self a as))]
    exact ih fun c hc => h c (List.mem_cons_of_mem a hc)

theorem dropWhile_ne_ws {l : List Char} (hne : l ≠ [])
    (hhead : ∀ c, l.head? = some c → isWs c = false) :
    l.dropWhile isWs = l := by
  cases l with
  | nil => rfl
  | cons a as =>
    rw [List.dropWhile_cons, if_neg (by simp [hhead a rfl])]

theorem trimL_of_ends (core : List Char) (hne : core ≠ [])
    (hhead : ∀ c, core.head? = some c → isWs c = false)
    (hlast : ∀ c, core.getLast? = some c → isWs c = false) :
    trimL core = core := by
  unfold trimL
  rw [dropWhile_ne_ws hne hhead]
  have hrne : core.reverse ≠ [] := fun h => hne (List.reverse_eq_nil_iff.1 h)
  rw [dropWhile_ne_ws hrne
    (fun c hc => hlast c (by rwa [List.head?_reverse] at hc))]
  exact List.reverse_reverse core

theorem fenceFallback_spec (w1 w2 core : List Char)
    (hw1 : ∀ c ∈ w1, isWs c = true) (hw2 : ∀ c ∈ w2, isWs c = true)
    (hne : core ≠ [])
    (hhead : ∀ c, core.head? = some c → isWs c = false)
    (hlast : ∀ c, core.getLast? = some c → isWs c = false) :
    fenceFallback (['`', '`', '`', 'j', 's', 'o', 'n'] ++
      (w1 ++ (core ++ (w2 ++ ['`', '`', '`'])))) = core := by
  obtain ⟨c0, core', rfl⟩ : ∃ c0 core', core = c0 :: core' := by
    cases core with
    | nil => exact absurd rfl hne
    | cons a as => exact ⟨a, as, rfl⟩
  have hc0 : isWs c0 = false := hhead c0 rfl
  unfold fenceFallback
  have h1 : stripLeadFence (['`', '`', '`', 'j', 's', 'o', 'n'] ++
      (w1 ++ ((c0 :: core') ++ (w2 ++ ['`', '`', '`'])))) =
      (c0 :: core') ++ (w2 ++ ['`', '`', '`']) := by
    unfold stripLeadFence
    rw [if_pos (isPrefixL_append _ _)]
    have hdrop : (['`', '`', '`', 'j', 's', 'o', 'n'] ++
        (w1 ++ ((c0 :: core') ++ (w2 ++ ['`', '`', '`'])))).drop 7 =
        w1 ++ ((c0 :: core') ++ (w2 ++ ['`', '`', '`'])) := by
      simpa using List.drop_left (['`', '`', '`', 'j', 's', 'o', 'n'] : List Char)
        (w1 ++ ((c0 :: core') ++ (w2 ++ ['`', '`', '`'])))
    rw [hdrop, dropWhile_append_all hw1]
    rw [List.cons_append, List.dropWhile_cons, if_neg (by simp [hc0])]
  rw [h1]
  have h2 : stripTrailFence ((c0 :: core') ++ (w2 ++ ['`', '`', '`'])) = c0 :: core' := by
    unfold stripTrailFence
    have hrev : ((c0 :: core') ++ (w2 ++ ['`', '`', '`'])).reverse =
        ['`', '`', '`'] ++ (w2.reverse ++ (c0 :: core').reverse) := by
      rw [List.reverse_append, List.reverse_append]
      rw [show (['`', '`', '`'] : List Char).reverse = ['`', '`', '`'] from rfl]
      rw [List.append_assoc]
    rw [hrev, if_pos (isPrefixL_append _ _)]
    have hdrop : (['`', '`', '`'] ++ (w2.reverse ++ (c0 :: core').reverse)).drop 3 =
        w2.reverse ++ (c0 :: core').reverse := by
      simpa using List.drop_left (['`', '`', '`'] : List Char)
        (w2.reverse ++ (c0 :: core').reverse)
    rw [hdrop, dropWhile_append_all (fun c hc => hw2 c (List.mem_reverse.1 hc))]
    have hrne : (c0 :: core').reverse ≠ [] :=
      fun h => List.cons_ne_nil c0 core' (List.reverse_eq_nil_iff.1 h)
    rw [dropWhile_ne_ws hrne
      (fun c hc => hlast c (by rwa [List.head?_reverse] at hc))]
    exact List.reverse_reverse _
  rw [h2]
  exact trimL_of_ends (c0 :: core') hne hhead hlast

/-- C9: when the response text has an opening brace at or before a closing
brace, the recovered JSON candidate is exactly the outermost brace span: the
text splits as prefix ++ candidate ++ suffix where the prefix holds no
opening brace, the suffix holds no closing brace, and the candidate runs
from the first opening to the last closing brace; whenever the host
JSON.parse rejects the recovered candidate, parseResponse fails with the
generic translation error and never returns a partially-parsed result map;
and a brace-free text wrapped in markdown fences is recovered by stripping
the fence markers and the surrounding whitespace. -/
theorem c9 (l : List Char) (i j : Nat) (hij : i ≤ j)
    (hi : l[i]? = some '{') (hj : l[j]? = some '}') :
    (∃ p m s, l = p ++ m ++ s ∧
      (∀ c ∈ p, c ≠ '{') ∧ (∀ c ∈ s, c ≠ '}') ∧
      m.head? = some '{' ∧ m.getLast? = some '}' ∧
      extractJsonL l = m) ∧
    (∀ (jsonParse : String → Option JsonVal) (text : String),
      jsonParse (extractJson text) = none →
      parseResponse jsonParse text =
        .error "The AI returned an invalid JSON response. Please try again.") ∧
    (∀ (w1 w2 core : List Char), (∀ c ∈ w1, isWs c = true) → (∀ c ∈ w2, isWs c = true) →
      (∀ c ∈ core, c ≠ '{') → core ≠ [] →
      (∀ c, core.head? = some c → isWs c = false) →
      (∀ c, core.getLast? = some c → isWs c = false) →
      extractJsonL (['`', '`', '`', 'j', 's', 'o', 'n'] ++
        (w1 ++ (core ++ (w2 ++ ['`', '`', '`'])))) = core) := by
  refine ⟨?_, ?_, ?_⟩
  · obtain ⟨s0, hs0, hs0i⟩ := jsIndexOf_complete hi
    obtain ⟨e0, he0, hje0⟩ := jsLastIndexOf_complete hj
    obtain ⟨hs0get, hs0min⟩ := jsIndexOf_spec hs0
    obtain ⟨he0get, he0max⟩ := jsLastIndexOf_spec he0
    have hse : s0 ≤ e0 := by omega
    have he0len : e0 < l.length := by
      by_contra hge
      rw [List.getElem?_eq_none (by omega)] at he0get
      exact Option.noConfusion he0get
    refine ⟨l.take s0, (l.take (e0 + 1)).drop s0, l.drop (e0 + 1), ?_, ?_, ?_, ?_, ?_, ?_⟩
    · have h1 : (l.take (e0 + 1)).take s0 = l.take s0 := by
        rw [List.take_take]
        congr 1
        omega
      have hpm : l.take s0 ++ (l.take (e0 + 1)).drop s0 = l.take (e0 + 1) := by
        conv_lhs => rw [← h1]
        exact List.take_append_drop s0 (l.take (e0 + 1))
      rw [List.append_assoc, ← List.append_assoc, hpm, List.take_append_drop]
    · intro c hc hcb
      subst hcb
      obtain ⟨k, hk⟩ := List.mem_iff_getElem?.1 hc
      have hklt : k < s0 := by
        by_contra hge
        rw [List.getElem?_take] at hk
        rw [if_neg hge] at hk
        exact Option.noConfusion hk
      rw [List.getElem?_take, if_pos hklt] at hk
      exact hs0min k hklt hk
    · intro c hc hcb
      subst hcb
      obtain ⟨k, hk⟩ := List.mem_iff_getElem?.1 hc
      rw [List.getElem?_drop] at hk
      exact he0max (e0 + 1 + k) (by omega) hk
    · rw [List.head?_eq_getElem?, List.getElem?_drop]
      rw [List.getElem?_take, if_pos (by omega)]
      rw [show s0 + 0 = s0 by omega]
      exact hs0get
    · have hlen : ((l.take (e0 + 1)).drop s0).length = e0 + 1 - s0 := by
        rw [List.length_drop, List.length_take]
        omega
      rw [List.getLast?_eq_getElem?, hlen]
      rw [List.getElem?_drop, List.getElem?_take]
      rw [if_pos (by omega)]
      rw [show s0 + (e0 + 1 - s0 - 1) = e0 by omega]
      exact he0get
    · unfold extractJsonL
      rw [hs0, he0]
      show (if s0 > e0 then fenceFallback l else (l.take (e0 + 1)).drop s0) = _
      rw [if_neg (by omega : ¬ s0 > e0)]
  · intro jsonParse text hfail
    unfold parseResponse
    rw [hfail]
  · intro w1 w2 core hw1 hw2 hbrace hne hhead hlast
    have hno : ∀ a ∈ ['`', '`', '`', 'j', 's', 'o', 'n'] ++
        (w1 ++ (core ++ (w2 ++ ['`', '`', '`']))), a ≠ '{' := by
      intro a ha hab
      subst hab
      rcases List.mem_append.1 ha with h7 | hx
      · exact absurd h7 (by decide)
      · rcases List.mem_append.1 hx with hw | hy
        · exact absurd (hw1 _ hw) (by decide)
        · rcases List.mem_append.1 hy with hc | hz
          · exact hbrace _ hc rfl
          · rcases List.mem_append.1 hz with hw | hb
            · exact absurd (hw2 _ hw) (by decide)
            · exact absurd hb (by decide)
    have hnone : jsIndexOf (['`', '`', '`', 'j', 's', 'o', 'n'] ++
        (w1 ++ (core ++ (w2 ++ ['`', '`', '`'])))) '{' = none :=
      jsIndexOf_eq_none hno
    unfold extractJsonL
    rw [hnone]
    exact fenceFallback_spec w1 w2 core hw1 hw2 hne hhead hlast

/-- C9 witness: in "ab{x}y}z" (no brace before index 2, no closing brace
after index 6) the recovered candidate is the outermost span from the first
opening brace to the last closing brace. -/
theorem c9_witness :
    (∃ p m s, "ab\x7bx\x7dy\x7dz".toList = p ++ m ++ s ∧
      (∀ c ∈ p, c ≠ '{') ∧ (∀ c ∈ s, c ≠ '}') ∧
      m.head? = some '{' ∧ m.getLast? = some '}' ∧
      extractJsonL "ab\x7bx\x7dy\x7dz".toList = m) ∧
    (∀ (jsonParse : String → Option JsonVal) (text : String),
      jsonParse (extractJson text) = none →
      parseResponse jsonParse text =
        .error "The AI returned an invalid JSON response. Please try again.") ∧
    (∀ (w1 w2 core : List Char), (∀ c ∈ w1, isWs c = true) → (∀ c ∈ w2, isWs c = true) →
      (∀ c ∈ core, c ≠ '{') → core ≠ [] →
      (∀ c, core.head? = some c → isWs c = false) →
      (∀ c, core.getLast? = some c → isWs c = false) →
      extractJsonL (['`', '`', '`', 'j', 's', 'o', 'n'] ++
        (w1 ++ (core ++ (w2 ++ ['`', '`', '`'])))) = core) :=
  c9 "ab\x7bx\x7dy\x7dz".toList 2 6 (by decide) (by decide) (by decide)

/-! ## Result-map lemmas (parseResponse, lines 119-128) -/

/-- A concrete parsed response used to witness the result-map theorem:
translations with ids 7, 2, 7, the repeat carrying an empty text. -/
def demoParsed : JsonVal :=
  JsonVal.obj [("translations", JsonVal.arr
    [JsonVal.obj [("id", JsonVal.num 7), ("translated_text", JsonVal.str "first")],
     JsonVal.obj [("id", JsonVal.num 2), ("translated_text", JsonVal.str "kept")],
     JsonVal.obj [("id", JsonVal.num 7), ("translated_text", JsonVal.str "")]])]

/-- The condition under which a translations-array element contributes an
entry with key `key`: its `translated_text` property is defined and its
coerced id equals `key`. -/
def pTrans (key : Option Int) (t : JsonVal) : Bool :=
  (getField t "translated_text").isSome && decide (jsNumber (getField t "id") = key)

/-- The `translated_text` of the last translations-array element that
contributes key `key`, if any. -/
def lastTranslated (ts : List JsonVal) (key : Option Int) : Option JsonVal :=
  match ts.reverse.find? (pTrans key) with
  | some t => getField t "translated_text"
  | none => none

theorem keys_map_update (m : List (Option Int × JsonVal)) (k : Option Int) (v : JsonVal) :
    ((m.map fun e => if e.1 = k then (k, v) else e).map Prod.fst) = m.map Prod.fst := by
  induction m with
  | nil => rfl
  | cons e rest ih =>
    simp only [List.map_cons, ih]
    congr 1
    split
    · rename_i h
      rw [← h]
    · rfl

theorem nodup_keys_mapSet (m : List (Option Int × JsonVal)) (k : Option Int) (v : JsonVal)
    (h : (m.map Prod.fst).Nodup) : ((mapSet m k v).map Prod.fst).Nodup := by
  unfold mapSet
  split
  · rw [keys_map_update]
    exact h
  · rename_i hany
    rw [List.map_append]
    rw [List.nodup_append]
    refine ⟨h, by simp, ?_⟩
    intro a ha hb
    simp only [List.map_cons, List.map_nil, List.mem_singleton] at hb
    subst hb
    obtain ⟨e, he, hea⟩ := List.mem_map.1 ha
    apply hany
    exact List.any_eq_true.2 ⟨e, he, by rw [hea]; simp⟩

theorem mapLookup_update_eq (m : List (Option Int × JsonVal)) (k : Option Int) (v : JsonVal)
    (hany : (m.any fun e => decide (e.1 = k)) = true) :
    mapLookup (m.map fun e => if e.1 = k then (k, v) else e) k = some v := by
  induction m with
  | nil => simp at hany
  | cons e rest ih =>
    by_cases hek : e.1 = k
    · unfold mapLookup
      simp only [List.map_cons, if_pos hek]
      rw [List.find?_cons_of_pos _ (by simp)]
      rfl
    · unfold mapLookup
      simp only [List.map_cons, if_neg hek]
      rw [List.find?_cons_of_neg _ (by simpa using hek)]
      apply ih
      rcases List.any_eq_true.1 hany with ⟨e', he', hpe⟩
      rcases (List.mem_cons).1 he' with rfl | he'
      · exact absurd (of_decide_eq_true hpe) hek
      · exact List.any_eq_true.2 ⟨e', he', hpe⟩

theorem mapLookup_update_ne (m : List (Option Int × JsonVal)) (k k' : Option Int)
    (v : JsonVal) (hne : k' ≠ k) :
    mapLookup (m.map fun e => if e.1 = k then (k, v) else e) k' = mapLookup m k' := by
  induction m with
  | nil => rfl
  | cons e rest ih =>
    by_cases hek : e.1 = k
    · have hkk : ¬ (k = k') := fun h => hne h.symm
      have hek' : ¬ (e.1 = k') := by rw [hek]; exact hkk
      unfold mapLookup
      simp only [List.map_cons, if_pos hek]
      rw [List.find?_cons_of_neg _ (by simpa using hkk)]
      rw [List.find?_cons_of_neg _ (by simpa using hek')]
      exact ih
    · by_cases hek' : e.1 = k'
      · unfold mapLookup
        simp only [List.map_cons, if_neg hek]
        rw [List.find?_cons_of_pos _ (by simpa using hek'),
          List.find?_cons_of_pos _ (by simpa using hek')]
      · unfold mapLookup
        simp only [List.map_cons, if_neg hek]
        rw [List.find?_cons_of_neg _ (by simpa using hek'),
          List.find?_cons_of_neg _ (by simpa using hek')]
        exact ih

theorem mapLookup_mapSet (m : List (Option Int × JsonVal)) (k k' : Option Int)
    (v : JsonVal) :
    mapLookup (mapSet m k v) k' = if k' = k then some v else mapLookup m k' := by
  unfold mapSet
  by_cases hany : (m.any fun e => decide (e.1 = k)) = true
  · rw [if_pos hany]
    by_cases hk : k' = k
    · subst hk
      rw [if_pos rfl]
      exact mapLookup_update_eq m k' v hany
    · rw [if_neg hk]
      exact mapLookup_update_ne m k k' v hk
  · rw [if_neg hany]
    by_cases hk : k' = k
    · subst hk
      rw [if_pos rfl]
      unfold mapLookup
      rw [List.find?_append]
      have hnone : (m.find? fun e => decide (e.1 = k')) = none := by
        rw [List.find?_eq_none]
        intro e he
        intro hpe
        exact hany (List.any_eq_true.2 ⟨e, he, hpe⟩)
      rw [hnone, Option.none_or]
      rw [List.find?_cons_of_pos _ (by simp)]
      rfl
    · rw [if_neg hk]
      unfold mapLookup
      rw [List.find?_append]
      have hnone : ([(k, v)].find? fun e => decide (e.1 = k')) = none := by
        rw [List.find?_eq_none]
        intro e he
        simp only [List.mem_singleton] at he
        subst he
        have : ¬ (k = k') := fun h => hk h.symm
        simpa using this
      rw [hnone, Option.or_none]

theorem mapLookup_foldl (ts : List JsonVal) :
    ∀ (m : List (Option Int × JsonVal)) (key : Option Int),
      mapLookup (ts.foldl addTranslation m) key =
        (lastTranslated ts key).or (mapLookup m key) := by
  induction ts with
  | nil =>
    intro m key
    simp [lastTranslated, List.find?]
  | cons t rest ih =>
    intro m key
    show mapLookup (rest.foldl addTranslation (addTranslation m t)) key = _
    rw [ih]
    have hsplit : lastTranslated (t :: rest) key =
        (lastTranslated rest key).or (if pTrans key t then getField t "translated_text"
          else none) := by
      unfold lastTranslated
      rw [List.reverse_cons, List.find?_append]
      cases hfind : rest.reverse.find? (pTrans key) with
      | some u =>
        have hu := List.find?_some hfind
        simp only [pTrans, Bool.and_eq_true, decide_eq_true_eq] at hu
        obtain ⟨v, hv⟩ := Option.isSome_iff_exists.1 hu.1
        simp [hfind, hv]
      | none =>
        simp only [hfind, Option.none_or]
        by_cases hpt : pTrans key t = true
        · rw [List.find?_cons_of_pos _ hpt, if_pos hpt]
        · rw [List.find?_cons_of_neg _ (by simpa using hpt), if_neg hpt]
          rfl
    rw [hsplit]
    cases hlast : lastTranslated rest key with
    | some v => simp
    | none =>
      simp only [Option.none_or]
      unfold addTranslation
      cases hgf : getField t "translated_text" with
      | none =>
        have hpt : pTrans key t = false := by
          unfold pTrans
          rw [hgf]
          rfl
        rw [hpt]
        simp
      | some v =>
        by_cases hid : jsNumber (getField t "id") = key
        · have hpt : pTrans key t = true := by
            unfold pTrans
            rw [hgf, hid]
            simp
          rw [hpt, if_pos rfl, hid]
          rw [mapLookup_mapSet m key key v, if_pos rfl]
          simp [hgf]
        · have hpt : pTrans key t = false := by
            unfold pTrans
            rw [hgf]
            simp [hid]
          rw [hpt]
          simp only [Bool.false_eq_true, if_false, Option.none_or]
          rw [mapLookup_mapSet m (jsNumber (getField t "id")) key v]
          rw [if_neg (fun h => hid h.symm)]

theorem nodup_keys_foldl (ts : List JsonVal) :
    ∀ (m : List (Option Int × JsonVal)), (m.map Prod.fst).Nodup →
      ((ts.foldl addTranslation m).map Prod.fst).Nodup := by
  induction ts with
  | nil => intro m h; exact h
  | cons t rest ih =>
    intro m h
    show ((rest.foldl addTranslation (addTranslation m t)).map Prod.fst).Nodup
    apply ih
    unfold addTranslation
    cases getField t "translated_text" with
    | none => exact h
    | some v => exact nodup_keys_mapSet m _ v h

theorem lastTranslated_isSome (ts : List JsonVal) (key : Option Int) :
    (lastTranslated ts key).isSome = true ↔ ∃ t ∈ ts, pTrans key t = true := by
  unfold lastTranslated
  cases hfind : ts.reverse.find? (pTrans key) with
  | some u =>
    have hu := List.find?_some hfind
    have humem : u ∈ ts := List.mem_reverse.1 (List.mem_of_find?_eq_some hfind)
    constructor
    · intro _
      exact ⟨u, humem, hu⟩
    · intro _
      have hu' := hu
      simp only [pTrans, Bool.and_eq_true, decide_eq_true_eq] at hu'
      exact hu'.1
  | none =>
    simp only [Option.isSome_none, Bool.false_eq_true, false_iff]
    rintro ⟨t, ht, hpt⟩
    have := List.find?_eq_none.1 hfind t (List.mem_reverse.2 ht)
    exact this hpt

/-- C10: the result map parseResponse builds from a parsed response has
pairwise-distinct keys; looking any key up yields exactly the
translated_text of the last translations-array element carrying that id
with a defined translated_text (so a repeated id keeps its last
occurrence's text); and a key is present iff some translations-array
element carries it with translated_text defined — including empty-string
texts and ids that were never dispatched, since nothing restricts the keys
to the batch that was sent. -/
theorem c10 (parsed : JsonVal)
    (hnn : ∀ t ∈ translationsOf parsed, t ≠ JsonVal.null) :
    ((buildResultMap parsed).map Prod.fst).Nodup ∧
    (∀ key, mapLookup (buildResultMap parsed) key =
      lastTranslated (translationsOf parsed) key) ∧
    (∀ key, (mapLookup (buildResultMap parsed) key).isSome = true ↔
      ∃ t ∈ translationsOf parsed, pTrans key t = true) := by
  refine ⟨?_, ?_, ?_⟩
  · exact nodup_keys_foldl (translationsOf parsed) [] (by simp)
  · intro key
    unfold buildResultMap
    rw [mapLookup_foldl]
    have : mapLookup [] key = none := rfl
    rw [this, Option.or_none]
  · intro key
    unfold buildResultMap
    rw [mapLookup_foldl]
    have : mapLookup [] key = none := rfl
    rw [this, Option.or_none]
    exact lastTranslated_isSome (translationsOf parsed) key

/-- C10 witness: a response carrying id 7 twice (an id never dispatched,
once with empty text) and id 2 once; the map keeps one entry per id, id 7
keeping the later, empty text. -/
theorem c10_witness :
    ((buildResultMap demoParsed).map Prod.fst).Nodup ∧
    (∀ key, mapLookup (buildResultMap demoParsed) key =
      lastTranslated (translationsOf demoParsed) key) ∧
    (∀ key, (mapLookup (buildResultMap demoParsed) key).isSome = true ↔
      ∃ t ∈ translationsOf demoParsed, pTrans key t = true) :=
  c10 demoParsed (by
    intro t ht hnull
    subst hnull
    simp [demoParsed, translationsOf, getField] at ht)

end DocxSpec
